import Mathlib

/-!
Verification of the route-string algebra and navigation adapter of the
`next-router-provider` package.

The definitions below are a shallow embedding of `src/helpers.ts` (and the
`isRouteActive` helper of `src/hooks.ts`).  JavaScript strings are modelled
as Lean `String` (lists of characters), JavaScript objects with string keys
as insertion-ordered association lists `List (String × String)`, and
`undefined`-able values as `Option`.  The asynchronous host-router call made
by `navigate` is modelled by recording the exact invocation (mode, templated
descriptor, concrete descriptor, options) and by taking the awaited boolean
outcome as an explicit argument.
-/

namespace NextRouterProvider

/-- `Query` from `src/types.ts`: a JavaScript object with string keys and
string values, modelled as an insertion-ordered association list. -/
abbrev Query := List (String × String)

/-- `Route` from `src/types.ts`: `pathname: string; query?: Query`. -/
structure Route where
  pathname : String
  query : Option Query
deriving DecidableEq

/-- `RouteOptions` from `src/types.ts`: `shallow?: boolean`. -/
structure RouteOptions where
  shallow : Option Bool
deriving DecidableEq

/-- `CreateMockRouterOptions` from `src/types.ts`:
`pathname: string; asPath?: string; query?: Record<string,string>; basePath?: string`. -/
structure CreateMockRouterOptions where
  pathname : String
  asPath : Option String
  query : Option Query
  basePath : Option String
deriving DecidableEq

/-- The value fields of the `NextRouter` object produced by
`createMockRouter` (its function members `push`/`replace`/`prefetch`
unconditionally resolve to `true`/`undefined` and mutate nothing, so the
observable router state is exactly these fields). -/
structure NextRouterState where
  pathname : String
  isFallback : Bool
  basePath : String
  query : Query
  asPath : String
  route : String
deriving DecidableEq

/-- `omit` from `helpers.ts`: a copy of `obj` without the keys listed in
`properties` (`properties.indexOf(key) === -1` keeps a key), preserving the
insertion order of the retained keys. -/
def omitKeys (obj : Query) (properties : List String) : Query :=
  obj.filter (fun kv => !(properties.contains kv.1))

/-- The character class `[a-zA-Z0-9]` of the parameter regex in
`findParams`. -/
def isAlnum (c : Char) : Bool :=
  c.isAlpha || c.isDigit

/-- The successive-match scan of `findMatches(/\[([a-zA-Z0-9]+)\]/g, str)`
from `helpers.ts`, written as a left-to-right character scan.  The state
`none` means "outside a candidate token"; `some acc` means "a `[` has been
read and `acc` holds the (reversed) alphanumeric run read since then".  A
token is emitted when the run is nonempty and is closed by `]`; the scan
then resumes after the `]`, exactly as the global regex resumes at
`lastIndex`. -/
def findMatches : Option (List Char) → List Char → List String
  | _, [] => []
  | none, c :: cs =>
    if c = '[' then findMatches (some []) cs else findMatches none cs
  | some acc, c :: cs =>
    if c = ']' then
      if acc.isEmpty then findMatches none cs
      else String.mk acc.reverse :: findMatches none cs
    else if isAlnum c then findMatches (some (c :: acc)) cs
    else if c = '[' then findMatches (some []) cs
    else findMatches none cs

/-- `findParams` from `helpers.ts`: all matches of
`/\[([a-zA-Z0-9]+)\]/g` in `pathname`, in left-to-right order. -/
def findParams (pathname : String) : List String :=
  findMatches none pathname.data

/-- `removeParams` from `helpers.ts`: a copy of `query` without the values
of the params of `pathname`. -/
def removeParams (pathname : String) (query : Query) : Query :=
  omitKeys query (findParams pathname)

/-- The literal text `[key]` substituted by `replaceParams`. -/
def paramToken (key : String) : List Char :=
  '[' :: key.data ++ [']']

/-- ECMA-262 GetSubstitution for a string search pattern (there are no
capture groups): expand the dollar patterns of the replacement text.
`$$` yields a dollar, `$&` the matched text, a dollar followed by the
backquote character (U+0060) the part of the subject before the match, `$'`
the part after it; any other dollar sequence — including group references,
which have no captures to refer to, and a trailing lone dollar — is kept
verbatim. -/
def getSubstitution (matched before after : List Char) : List Char → List Char
  | [] => []
  | ['$'] => ['$']
  | '$' :: d :: rest2 =>
    if d = '$' then '$' :: getSubstitution matched before after rest2
    else if d = '&' then matched ++ getSubstitution matched before after rest2
    else if d = Char.ofNat 96 then before ++ getSubstitution matched before after rest2
    else if d = '\'' then after ++ getSubstitution matched before after rest2
    else '$' :: d :: getSubstitution matched before after rest2
  | c :: rest => c :: getSubstitution matched before after rest

/-- The scan underlying `replaceFirst`: `before` accumulates (reversed) the
subject text already passed, so that at the match point GetSubstitution
receives the full before/after context (an empty `pat` matches at
position 0, as in JavaScript). -/
def replaceFirstAux (pat rep : List Char) : List Char → List Char → List Char
  | before, [] =>
    if pat.isEmpty then getSubstitution pat before.reverse [] rep else []
  | before, c :: cs =>
    if pat.isPrefixOf (c :: cs) then
      getSubstitution pat before.reverse ((c :: cs).drop pat.length) rep ++
        (c :: cs).drop pat.length
    else c :: replaceFirstAux pat rep (c :: before) cs

/-- JavaScript `String.prototype.replace` with a string pattern: replace the
first occurrence of `pat` by the replacement text expanded per ECMA-262
GetSubstitution. -/
def replaceFirst (pat rep s : List Char) : List Char :=
  replaceFirstAux pat rep [] s

/-- Literal-text first-occurrence replacement: agrees with `replaceFirst`
exactly when the replacement contains no dollar character (GetSubstitution
is then the identity); used to factor the substitution proofs. -/
def replaceFirstLit (pat rep : List Char) : List Char → List Char
  | [] => if pat.isEmpty then rep else []
  | c :: cs =>
    if pat.isPrefixOf (c :: cs) then rep ++ (c :: cs).drop pat.length
    else c :: replaceFirstLit pat rep cs

/-- `replaceParams` from `helpers.ts`: if `params` is absent return `str`
unchanged, otherwise for each key of `params` in insertion order replace
the first occurrence of the literal token `[key]` by the value. -/
def replaceParams (str : String) (params : Option Query) : String :=
  match params with
  | none => str
  | some ps =>
    String.mk
      (ps.foldl (fun pathname kv => replaceFirst (paramToken kv.1) kv.2.data pathname)
        str.data)

/-- A hexadecimal digit (upper case), as produced by percent-encoding. -/
def hexDigit (n : Nat) : Char :=
  if n < 10 then Char.ofNat (48 + n) else Char.ofNat (55 + n)

/-- Percent-encoding `%XX` of one byte. -/
def percentByte (b : Nat) : List Char :=
  ['%', hexDigit (b / 16), hexDigit (b % 16)]

/-- UTF-8 bytes of a unicode code point. -/
def utf8Bytes (n : Nat) : List Nat :=
  if n < 128 then [n]
  else if n < 2048 then [192 + n / 64, 128 + n % 64]
  else if n < 65536 then [224 + n / 4096, 128 + n / 64 % 64, 128 + n % 64]
  else [240 + n / 262144, 128 + n / 4096 % 64, 128 + n / 64 % 64, 128 + n % 64]

/-- The characters Node's `querystring.escape` leaves unencoded. -/
def qsUnreserved (c : Char) : Bool :=
  c.isAlpha || c.isDigit || c = '-' || c = '_' || c = '.' || c = '!' || c = '~' ||
    c = '*' || c = '\'' || c = '(' || c = ')'

/-- Node `querystring.escape`: percent-encode every reserved character. -/
def qsEscape (s : String) : String :=
  String.mk
    ((s.data.map (fun c =>
      if qsUnreserved c then [c] else ((utf8Bytes c.toNat).map percentByte).flatten)).flatten)

/-- Node `querystring.stringify`: `key=value` pairs joined by `&` in
insertion order, both sides escaped. -/
def stringifyQuery (q : Query) : String :=
  String.intercalate "&" (q.map (fun kv => qsEscape kv.1 ++ "=" ++ qsEscape kv.2))

/-- Legacy Node `url.format` escapes `?` and `#` occurring in the pathname. -/
def escapePathChars (p : String) : String :=
  String.mk
    ((p.data.map (fun c =>
      if c = '?' then ['%', '3', 'F'] else if c = '#' then ['%', '2', '3'] else [c])).flatten)

/-- Node `url.format({pathname, query})`: the pathname followed by
`?`-prefixed stringified query when the query object is nonempty. -/
def urlFormat (pathname : String) (query : Query) : String :=
  escapePathChars pathname ++ (if query.isEmpty then "" else "?" ++ stringifyQuery query)

/-- `routeToString` from `helpers.ts`.  The first argument models
`Pick<NextRouter, 'basePath'>`, i.e. just the (defaultable) base path. -/
def routeToString (router : Option String) (route : Route) : String :=
  let pathname := route.pathname
  let query := route.query.getD []
  let basePath := router.getD ""
  urlFormat (basePath ++ replaceParams pathname (some query)) (removeParams pathname query)

/-- The two navigation modes, i.e. which of `router.push` / `router.replace`
is invoked by `navigate`. -/
inductive NavMode
  | push
  | replace
deriving DecidableEq

/-- The first (`url`) argument of `router.push`/`router.replace`: the
templated descriptor — `query` is passed through as-is and may be
`undefined`. -/
structure TemplatedUrl where
  pathname : String
  query : Option Query
deriving DecidableEq

/-- The second (`as`) argument of `router.push`/`router.replace`: the
concrete descriptor. -/
structure ConcreteUrl where
  pathname : String
  query : Query
deriving DecidableEq

/-- One invocation of the host router capability, in argument order:
`router[mode](templated, concrete, options)`. -/
structure NavCall where
  mode : NavMode
  templated : TemplatedUrl
  concrete : ConcreteUrl
  options : Option RouteOptions
deriving DecidableEq

/-- The single capability invocation `navigate` builds for a route:
`router[type]({pathname, query}, {pathname: replaceParams(pathname, query),
query: omit(query || \x7b\x7d, findParams(pathname))}, options)`. -/
def navigateCall (route : Route) (type : NavMode) (options : Option RouteOptions) : NavCall :=
  let pathname := route.pathname
  let query := route.query
  let queryWithoutParams := omitKeys (query.getD []) (findParams pathname)
  { mode := type,
    templated := { pathname := pathname, query := query },
    concrete := { pathname := replaceParams pathname query, query := queryWithoutParams },
    options := options }

/-- The observable behaviour of one `navigate` run: the host-router
invocations it performs, whether the scroll-reset side effect
(`window.scrollTo(0, 0); document.body.focus()`) ran, and the returned
boolean. -/
structure NavRun where
  calls : List NavCall
  scrolled : Bool
  result : Bool
deriving DecidableEq

/-- `navigate` from `helpers.ts`.  `outcome` is the boolean the awaited
`router[type](...)` call resolves to. -/
def navigate (route : Route) (type : NavMode) (options : Option RouteOptions)
    (outcome : Bool) : NavRun :=
  let shouldScroll := route.pathname.data.contains '#'
  { calls := [navigateCall route type options],
    scrolled := outcome && shouldScroll,
    result := outcome }

/-- `pushRoute` from `helpers.ts`: `navigate(router, route, 'push', options)`. -/
def pushRoute (route : Route) (options : Option RouteOptions) (outcome : Bool) : NavRun :=
  navigate route NavMode.push options outcome

/-- `replaceRoute` from `helpers.ts`: `navigate(router, route, 'replace', options)`. -/
def replaceRoute (route : Route) (options : Option RouteOptions) (outcome : Bool) : NavRun :=
  navigate route NavMode.replace options outcome

/-- The fields of a pointer event read by `wantsNewTab`:
`e.currentTarget.nodeName`, `e.currentTarget.getAttribute('target')`
(`none` models `null`), the modifier keys, and `e.nativeEvent.which`
(`none` models an absent `nativeEvent` or an undefined `which`). -/
structure MouseEventModel where
  nodeName : String
  target : Option String
  metaKey : Bool
  ctrlKey : Bool
  shiftKey : Bool
  nativeWhich : Option Nat
deriving DecidableEq

/-- `wantsNewTab` from `helpers.ts`.  Note the JavaScript truthiness test
`target && target !== '_self'`: an empty-string attribute value is falsy. -/
def wantsNewTab (e : MouseEventModel) : Bool :=
  let targetBlocks :=
    match e.target with
    | some t => !(t == "") && !(t == "_self")
    | none => false
  if targetBlocks then true
  else if e.nodeName == "A" &&
      (e.metaKey || e.ctrlKey || e.shiftKey || e.nativeWhich == some 2) then true
  else false

/-- The data a handler returned by `createClickHandler` closes over. -/
structure ClickHandlerBinding where
  route : Route
  options : Option RouteOptions
deriving DecidableEq

/-- `createClickHandler` from `helpers.ts`, as the binding its returned
closure captures. -/
def createClickHandler (route : Route) (options : Option RouteOptions) : ClickHandlerBinding :=
  { route := route, options := options }

/-- The observable behaviour of one click-handler run: whether
`e.preventDefault()` was called and which push invocations were issued. -/
structure ClickOutcome where
  preventedDefault : Bool
  pushes : List NavCall
deriving DecidableEq

/-- The body of the closure returned by `createClickHandler`:
`if (wantsNewTab(e)) return; e.preventDefault(); pushRoute(router, route, options);`. -/
def runClickHandler (h : ClickHandlerBinding) (e : MouseEventModel) : ClickOutcome :=
  if wantsNewTab e then { preventedDefault := false, pushes := [] }
  else
    { preventedDefault := true,
      pushes := [navigateCall h.route NavMode.push h.options] }

/-- The `Link` object built by `createLink`, with the zero-argument `push` /
`replace` triggers modelled by the capability invocations they issue. -/
structure Link where
  route : Route
  isActive : Bool
  pushCalls : List NavCall
  replaceCalls : List NavCall
  onClick : ClickHandlerBinding
  href : String
deriving DecidableEq

/-- `createLink` from `helpers.ts`.  Note the source passes no `options` to
`createClickHandler` here. -/
def createLink (router : NextRouterState) (route : Route)
    (options : Option RouteOptions) : Link :=
  { route := route,
    isActive := router.route == route.pathname,
    pushCalls := [navigateCall route NavMode.push options],
    replaceCalls := [navigateCall route NavMode.replace options],
    onClick := createClickHandler route none,
    href := routeToString (some router.basePath) route }

/-- `createMockRouter` from `helpers.ts`. -/
def createMockRouter (options : CreateMockRouterOptions) : NextRouterState :=
  let pathname := options.pathname
  let query := options.query.getD []
  let basePath := options.basePath.getD ""
  { pathname := pathname,
    isFallback := false,
    basePath := basePath,
    query := query,
    asPath := routeToString (some "") { pathname := pathname, query := some query },
    route := pathname }

/-- `isRouteActive` from `src/hooks.ts`:
`router.route.startsWith(route.pathname)` (JavaScript `startsWith` is the
string-prefix test). -/
def isRouteActive (router : NextRouterState) (route : Route) : Bool :=
  List.isPrefixOf route.pathname.data router.route.data

/-- A valid parameter name: nonempty and matching `[a-zA-Z0-9]+`. -/
abbrev validName (k : String) : Prop :=
  k.data ≠ [] ∧ ∀ c ∈ k.data, isAlnum c = true

theorem isAlnum_ne_lb {c : Char} (h : isAlnum c = true) : c ≠ '[' := by
  intro hc; subst hc; exact absurd h (by decide)

theorem isAlnum_ne_rb {c : Char} (h : isAlnum c = true) : c ≠ ']' := by
  intro hc; subst hc; exact absurd h (by decide)

theorem paramToken_ne_nil (k : String) : paramToken k ≠ [] := by
  simp [paramToken]

theorem length_paramToken (k : String) : (paramToken k).length = k.data.length + 2 := by
  simp [paramToken]

theorem data_stringMk (l : List Char) : (String.mk l).data = l := rfl

theorem stringMk_data (s : String) : String.mk s.data = s := rfl

theorem findMatches_nil (st : Option (List Char)) : findMatches st [] = [] := by
  cases st <;> rfl

theorem findMatches_none_cons_ne {c : Char} (h : c ≠ '[') (cs : List Char) :
    findMatches none (c :: cs) = findMatches none cs := by
  simp [findMatches, h]

theorem findMatches_none_cons_lb (cs : List Char) :
    findMatches none ('[' :: cs) = findMatches (some []) cs := by
  simp [findMatches]

theorem findMatches_some_rb (acc cs : List Char) :
    findMatches (some acc) (']' :: cs) =
      if acc.isEmpty then findMatches none cs
      else String.mk acc.reverse :: findMatches none cs := by
  simp [findMatches]

theorem findMatches_some_alnum {c : Char} (h : isAlnum c = true) (acc cs : List Char) :
    findMatches (some acc) (c :: cs) = findMatches (some (c :: acc)) cs := by
  simp [findMatches, isAlnum_ne_rb h, h]

theorem findMatches_some_lb (acc cs : List Char) :
    findMatches (some acc) ('[' :: cs) = findMatches (some []) cs := by
  have h : isAlnum '[' = false := by decide
  simp [findMatches, h]

theorem findMatches_some_junk {c : Char} (h1 : c ≠ ']') (h2 : c ≠ '[')
    (h3 : isAlnum c = false) (acc cs : List Char) :
    findMatches (some acc) (c :: cs) = findMatches none cs := by
  simp [findMatches, h1, h2, h3]

theorem findMatches_skip {seg : List Char} (h : ∀ c ∈ seg, c ≠ '[') (rest : List Char) :
    findMatches none (seg ++ rest) = findMatches none rest := by
  induction seg with
  | nil => rfl
  | cons c cs ih =>
    rw [List.cons_append, findMatches_none_cons_ne (h c (by simp))]
    exact ih (fun d hd => h d (by simp [hd]))

theorem findMatches_consume {name : List Char} (h : ∀ c ∈ name, isAlnum c = true) :
    ∀ (acc rest : List Char),
      findMatches (some acc) (name ++ rest) = findMatches (some (name.reverse ++ acc)) rest := by
  induction name with
  | nil => intro acc rest; rfl
  | cons c cs ih =>
    intro acc rest
    rw [List.cons_append, findMatches_some_alnum (h c (by simp)),
      ih (fun d hd => h d (by simp [hd]))]
    simp [List.append_assoc]

theorem findMatches_token {name : List Char} (h0 : name ≠ [])
    (h : ∀ c ∈ name, isAlnum c = true) (rest : List Char) :
    findMatches none ('[' :: (name ++ ']' :: rest)) =
      String.mk name :: findMatches none rest := by
  rw [findMatches_none_cons_lb, findMatches_consume h, findMatches_some_rb]
  have hne : (name.reverse ++ ([] : List Char)).isEmpty = false := by
    simp [List.isEmpty_iff, h0]
  simp [hne, h0]

theorem findMatches_sublist : ∀ (l acc : List Char),
    (findMatches none l).Sublist (findMatches (some acc) l) := by
  intro l
  induction l with
  | nil => intro acc; simp [findMatches_nil]
  | cons c cs ih =>
    intro acc
    by_cases hrb : c = ']'
    · subst hrb
      rw [findMatches_none_cons_ne (by decide), findMatches_some_rb]
      by_cases hacc : acc.isEmpty = true
      · simp only [hacc, if_true]
        exact List.Sublist.refl _
      · simp only [hacc, if_false]
        exact List.Sublist.cons _ (List.Sublist.refl _)
    · by_cases ha : isAlnum c = true
      · rw [findMatches_none_cons_ne (isAlnum_ne_lb ha), findMatches_some_alnum ha]
        exact ih (c :: acc)
      · by_cases hlb : c = '['
        · subst hlb
          rw [findMatches_none_cons_lb, findMatches_some_lb]
        · rw [findMatches_none_cons_ne hlb,
            findMatches_some_junk hrb hlb (by simpa using ha)]

/-- The alphanumeric invariant on the scan state. -/
def accAlnum : Option (List Char) → Prop
  | none => True
  | some acc => ∀ c ∈ acc, isAlnum c = true

theorem mem_findMatches_valid : ∀ (l : List Char) (st : Option (List Char)),
    accAlnum st → ∀ k ∈ findMatches st l, validName k := by
  intro l
  induction l with
  | nil => intro st _ k hk; rw [findMatches_nil] at hk; cases hk
  | cons c cs ih =>
    intro st hst k hk
    cases st with
    | none =>
      by_cases hlb : c = '['
      · subst hlb
        rw [findMatches_none_cons_lb] at hk
        exact ih (some []) (by intro d hd; cases hd) k hk
      · rw [findMatches_none_cons_ne hlb] at hk
        exact ih none trivial k hk
    | some acc =>
      by_cases hrb : c = ']'
      · subst hrb
        rw [findMatches_some_rb] at hk
        by_cases hacc : acc.isEmpty = true
        · simp only [hacc, if_true] at hk
          exact ih none trivial k hk
        · simp only [hacc, if_false] at hk
          rcases List.mem_cons.mp hk with hk | hk
          · subst hk
            refine ⟨?_, ?_⟩
            · simp only [data_stringMk, ne_eq, List.reverse_eq_nil_iff]
              simpa [List.isEmpty_iff] using hacc
            · intro d hd
              exact hst d (List.mem_reverse.mp hd)
          · exact ih none trivial k hk
      · by_cases ha : isAlnum c = true
        · rw [findMatches_some_alnum ha] at hk
          refine ih (some (c :: acc)) ?_ k hk
          intro d hd
          rcases List.mem_cons.mp hd with h | h
          · subst h; exact ha
          · exact hst d h
        · by_cases hlb : c = '['
          · subst hlb
            rw [findMatches_some_lb] at hk
            exact ih (some []) (by intro d hd; cases hd) k hk
          · rw [findMatches_some_junk hrb hlb (by simpa using ha)] at hk
            exact ih none trivial k hk

/-- The text already consumed towards a candidate token in a given scan
state. -/
def statePrefix : Option (List Char) → List Char
  | none => []
  | some acc => '[' :: acc.reverse

theorem mem_findMatches_infix : ∀ (l : List Char) (st : Option (List Char)) (k : String),
    k ∈ findMatches st l → paramToken k <:+: statePrefix st ++ l := by
  intro l
  induction l with
  | nil => intro st k hk; rw [findMatches_nil] at hk; cases hk
  | cons c cs ih =>
    intro st k hk
    cases st with
    | none =>
      by_cases hlb : c = '['
      · subst hlb
        rw [findMatches_none_cons_lb] at hk
        simpa [statePrefix] using ih (some []) k hk
      · rw [findMatches_none_cons_ne hlb] at hk
        exact List.infix_cons (by simpa [statePrefix] using ih none k hk)
    | some acc =>
      by_cases hrb : c = ']'
      · subst hrb
        rw [findMatches_some_rb] at hk
        have htail : ∀ k, paramToken k <:+: cs →
            paramToken k <:+: statePrefix (some acc) ++ ']' :: cs := by
          intro k hk
          refine hk.trans (List.IsSuffix.isInfix ?_)
          have := List.suffix_append (('[' :: acc.reverse) ++ [']']) cs
          simpa [statePrefix, List.append_assoc] using this
        by_cases hacc : acc.isEmpty = true
        · simp only [hacc, if_true] at hk
          exact htail k (by simpa [statePrefix] using ih none k hk)
        · simp only [hacc, if_false] at hk
          rcases List.mem_cons.mp hk with hk | hk
          · subst hk
            refine List.IsPrefix.isInfix ⟨cs, ?_⟩
            simp [paramToken, statePrefix, data_stringMk, List.append_assoc]
          · exact htail k (by simpa [statePrefix] using ih none k hk)
      · by_cases ha : isAlnum c = true
        · rw [findMatches_some_alnum ha] at hk
          have := ih (some (c :: acc)) k hk
          simpa [statePrefix, List.append_assoc] using this
        · by_cases hlb : c = '['
          · subst hlb
            rw [findMatches_some_lb] at hk
            have h1 : paramToken k <:+: '[' :: cs := by
              simpa [statePrefix] using ih (some []) k hk
            refine h1.trans (List.IsSuffix.isInfix ?_)
            have := List.suffix_append ('[' :: acc.reverse) ('[' :: cs)
            simpa [statePrefix, List.append_assoc] using this
          · rw [findMatches_some_junk hrb hlb (by simpa using ha)] at hk
            have h1 : paramToken k <:+: cs := by
              simpa [statePrefix] using ih none k hk
            refine h1.trans (List.IsSuffix.isInfix ?_)
            have := List.suffix_append ('[' :: acc.reverse ++ [c]) cs
            simpa [statePrefix, List.append_assoc] using this

theorem infix_mem_findMatches : ∀ (l : List Char) (k : String),
    validName k → paramToken k <:+: l → k ∈ findMatches none l := by
  intro l
  induction l with
  | nil =>
    intro k hv hinf
    rw [List.infix_nil] at hinf
    exact absurd hinf (paramToken_ne_nil k)
  | cons c cs ih =>
    intro k hv hinf
    rcases List.infix_cons_iff.mp hinf with hpre | hinf'
    · obtain ⟨t, ht⟩ := hpre
      rw [paramToken, List.cons_append] at ht
      injection ht with h1 h2
      subst h1
      have hcs : cs = k.data ++ ']' :: t := by
        rw [← h2]; simp [List.append_assoc]
      subst hcs
      rw [findMatches_token hv.1 hv.2, stringMk_data]
      exact List.mem_cons_self _ _
    · have hmem := ih k hv hinf'
      by_cases hlb : c = '['
      · subst hlb
        rw [findMatches_none_cons_lb]
        exact List.Sublist.mem hmem (findMatches_sublist cs [])
      · rw [findMatches_none_cons_ne hlb]
        exact hmem

/-- An abstract template: an alternation of literal pieces and parameter
tokens; `renderTmpl` is the template's text. -/
inductive TmplPart where
  | lit : List Char → TmplPart
  | param : String → TmplPart
deriving DecidableEq

/-- The text of an abstract template. -/
def renderTmpl : List TmplPart → List Char
  | [] => []
  | TmplPart.lit s :: ps => s ++ renderTmpl ps
  | TmplPart.param p :: ps => paramToken p ++ renderTmpl ps

/-- The parameter names of an abstract template, in order. -/
def partNames : List TmplPart → List String
  | [] => []
  | TmplPart.lit _ :: ps => partNames ps
  | TmplPart.param p :: ps => p :: partNames ps

/-- A bracket-free literal piece. -/
abbrev litFree (s : List Char) : Prop := ∀ c ∈ s, c ≠ '[' ∧ c ≠ ']'

/-- Well-formedness of a template part: literal pieces are bracket-free and
parameter names are valid. -/
def partOK : TmplPart → Prop
  | TmplPart.lit s => litFree s
  | TmplPart.param p => validName p

instance : DecidablePred partOK := fun p =>
  match p with
  | TmplPart.lit s => inferInstanceAs (Decidable (litFree s))
  | TmplPart.param q => inferInstanceAs (Decidable (validName q))

/-- A piece of text containing no parameter token at all. -/
def noTok (j : List Char) : Prop :=
  ∀ k : String, validName k → ¬ paramToken k <:+: j

/-- Weak well-formedness used for the decomposition of arbitrary strings:
literal pieces contain no complete token. -/
def junkOK : TmplPart → Prop
  | TmplPart.lit s => noTok s
  | TmplPart.param p => validName p

theorem findMatches_renderTmpl : ∀ (parts : List TmplPart),
    (∀ p ∈ parts, partOK p) →
    findMatches none (renderTmpl parts) = partNames parts := by
  intro parts
  induction parts with
  | nil => intro _; rfl
  | cons p ps ih =>
    intro h
    cases p with
    | lit s =>
      have hs : litFree s := h _ (List.mem_cons_self _ _)
      simp only [renderTmpl, partNames]
      rw [findMatches_skip (fun c hc => (hs c hc).1)]
      exact ih (fun q hq => h q (List.mem_cons_of_mem _ hq))
    | param q =>
      have hq : validName q := h _ (List.mem_cons_self _ _)
      simp only [renderTmpl, partNames]
      rw [show paramToken q ++ renderTmpl ps = '[' :: (q.data ++ ']' :: renderTmpl ps) by
        simp [paramToken, List.append_assoc]]
      rw [findMatches_token hq.1 hq.2, stringMk_data]
      exact congrArg _ (ih (fun r hr => h r (List.mem_cons_of_mem _ hr)))

/-- Extend a decomposition by one leading character. -/
def litCons (c : Char) : List TmplPart → List TmplPart
  | TmplPart.lit j :: ps => TmplPart.lit (c :: j) :: ps
  | ps => TmplPart.lit [c] :: ps

theorem renderTmpl_litCons (c : Char) (parts : List TmplPart) :
    renderTmpl (litCons c parts) = c :: renderTmpl parts := by
  cases parts with
  | nil => rfl
  | cons p ps => cases p <;> rfl

theorem partNames_litCons (c : Char) (parts : List TmplPart) :
    partNames (litCons c parts) = partNames parts := by
  cases parts with
  | nil => rfl
  | cons p ps => cases p <;> rfl

theorem noTok_nil : noTok [] := by
  intro k _ hinf
  rw [List.infix_nil] at hinf
  exact paramToken_ne_nil k hinf

theorem noTok_single (c : Char) : noTok [c] := by
  intro k _ hinf
  have h1 := hinf.length_le
  rw [length_paramToken] at h1
  simp at h1

theorem noTok_cons_of_ne {c : Char} (hc : c ≠ '[') {j : List Char} (hj : noTok j) :
    noTok (c :: j) := by
  intro k hv hinf
  rcases List.infix_cons_iff.mp hinf with hpre | hinf'
  · obtain ⟨t, ht⟩ := hpre
    rw [paramToken, List.cons_append] at ht
    injection ht with h1 _
    exact hc h1.symm
  · exact hj k hv hinf'

theorem junkOK_litCons_of_ne {c : Char} (hc : c ≠ '[') {parts : List TmplPart}
    (h : ∀ p ∈ parts, junkOK p) : ∀ p ∈ litCons c parts, junkOK p := by
  cases parts with
  | nil =>
    intro p hp
    rcases List.mem_cons.mp hp with hp | hp
    · subst hp; exact noTok_single c
    · cases hp
  | cons q ps =>
    cases q with
    | lit j =>
      intro p hp
      rcases List.mem_cons.mp hp with hp | hp
      · subst hp
        exact noTok_cons_of_ne hc (h _ (List.mem_cons_self _ _))
      · exact h p (List.mem_cons_of_mem _ hp)
    | param q' =>
      intro p hp
      rcases List.mem_cons.mp hp with hp | hp
      · subst hp; exact noTok_single c
      · exact h p hp

theorem dropWhile_head_neg (p : Char → Bool) : ∀ (l : List Char) (a : Char),
    (l.dropWhile p).head? = some a → p a = false := by
  intro l
  induction l with
  | nil => intro a h; cases h
  | cons c cs ih =>
    intro a h
    by_cases hc : p c = true
    · rw [List.dropWhile_cons_of_pos hc] at h
      exact ih a h
    · rw [List.dropWhile_cons_of_neg hc] at h
      injection h with h
      subst h
      simpa using hc

theorem takeWhile_alnum_decomp {a m : List Char} (ha : ∀ c ∈ a, isAlnum c = true) :
    (a ++ ']' :: m).takeWhile isAlnum = a ∧ (a ++ ']' :: m).dropWhile isAlnum = ']' :: m := by
  induction a with
  | nil =>
    exact ⟨List.takeWhile_cons_of_neg (by decide), List.dropWhile_cons_of_neg (by decide)⟩
  | cons d ds ihd =>
    have hd := ha d (List.mem_cons_self _ _)
    have ih' := ihd (fun c hc => ha c (List.mem_cons_of_mem _ hc))
    constructor
    · rw [List.cons_append, List.takeWhile_cons_of_pos hd, ih'.1]
    · rw [List.cons_append, List.dropWhile_cons_of_pos hd]
      exact ih'.2

theorem findMatches_lb_success {l' : List Char}
    (h1 : l'.takeWhile isAlnum ≠ [])
    (h2 : (l'.dropWhile isAlnum).head? = some ']') :
    ∃ r2, l' = l'.takeWhile isAlnum ++ ']' :: r2 ∧
      findMatches none ('[' :: l') =
        String.mk (l'.takeWhile isAlnum) :: findMatches none r2 := by
  cases hdw : l'.dropWhile isAlnum with
  | nil => rw [hdw] at h2; cases h2
  | cons d ds =>
    have hd : d = ']' := by rw [hdw] at h2; simpa using h2
    subst hd
    have hdecomp : l' = l'.takeWhile isAlnum ++ ']' :: ds := by
      conv_lhs => rw [← List.takeWhile_append_dropWhile isAlnum l']
      rw [hdw]
    refine ⟨ds, hdecomp, ?_⟩
    conv_lhs => rw [hdecomp]
    exact findMatches_token h1 (fun c hc => List.mem_takeWhile_imp hc) ds

theorem findMatches_lb_fail {l' : List Char}
    (h : ¬(l'.takeWhile isAlnum ≠ [] ∧ (l'.dropWhile isAlnum).head? = some ']')) :
    findMatches none ('[' :: l') = findMatches none l' := by
  rw [findMatches_none_cons_lb]
  have hdecomp := List.takeWhile_append_dropWhile isAlnum l'
  have htw_alnum : ∀ c ∈ l'.takeWhile isAlnum, isAlnum c = true :=
    fun c hc => List.mem_takeWhile_imp hc
  have htwlb : ∀ c ∈ l'.takeWhile isAlnum, c ≠ '[' :=
    fun c hc => isAlnum_ne_lb (htw_alnum c hc)
  have hstep : findMatches (some (l'.takeWhile isAlnum).reverse) (l'.dropWhile isAlnum) =
      findMatches none (l'.dropWhile isAlnum) := by
    cases hdw : l'.dropWhile isAlnum with
    | nil => rw [findMatches_nil, findMatches_nil]
    | cons d ds =>
      have hdneg : isAlnum d = false := dropWhile_head_neg isAlnum l' d (by rw [hdw]; rfl)
      by_cases hdr : d = ']'
      · subst hdr
        have htw : l'.takeWhile isAlnum = [] := by
          by_contra hne
          exact h ⟨hne, by rw [hdw]; rfl⟩
        rw [htw]
        rw [findMatches_some_rb, findMatches_none_cons_ne (by decide)]
        simp
      · by_cases hdl : d = '['
        · subst hdl
          rw [findMatches_some_lb, findMatches_none_cons_lb]
        · rw [findMatches_some_junk hdr hdl hdneg, findMatches_none_cons_ne hdl]
  calc findMatches (some []) l'
      = findMatches (some []) (l'.takeWhile isAlnum ++ l'.dropWhile isAlnum) := by
        rw [hdecomp]
    _ = findMatches (some (l'.takeWhile isAlnum).reverse) (l'.dropWhile isAlnum) := by
        rw [findMatches_consume htw_alnum]; simp
    _ = findMatches none (l'.dropWhile isAlnum) := hstep
    _ = findMatches none (l'.takeWhile isAlnum ++ l'.dropWhile isAlnum) :=
        (findMatches_skip htwlb _).symm
    _ = findMatches none l' := by rw [hdecomp]

theorem exists_parts_aux : ∀ (n : Nat) (l : List Char), l.length ≤ n →
    ∃ parts, renderTmpl parts = l ∧ findMatches none l = partNames parts ∧
      ∀ p ∈ parts, junkOK p := by
  intro n
  induction n with
  | zero =>
    intro l hl
    have : l = [] := List.eq_nil_of_length_eq_zero (Nat.le_zero.mp hl)
    subst this
    exact ⟨[], rfl, rfl, by intro p hp; cases hp⟩
  | succ n ih =>
    intro l hl
    cases l with
    | nil => exact ⟨[], rfl, rfl, by intro p hp; cases hp⟩
    | cons c l' =>
      have hl' : l'.length ≤ n := by
        simp only [List.length_cons] at hl
        omega
      by_cases hlb : c = '['
      · subst hlb
        by_cases hs : l'.takeWhile isAlnum ≠ [] ∧ (l'.dropWhile isAlnum).head? = some ']'
        · obtain ⟨r2, hdecomp, heq⟩ := findMatches_lb_success hs.1 hs.2
          have hr2 : r2.length ≤ n := by
            have hlen := congrArg List.length hdecomp
            simp only [List.length_append, List.length_cons] at hlen
            omega
          obtain ⟨parts2, hrender2, hnames2, hjunk2⟩ := ih r2 hr2
          refine ⟨TmplPart.param (String.mk (l'.takeWhile isAlnum)) :: parts2, ?_, ?_, ?_⟩
          · simp only [renderTmpl, hrender2, paramToken, data_stringMk]
            conv_rhs => rw [hdecomp]
            simp [List.append_assoc]
          · rw [heq]
            simp only [partNames]
            rw [hnames2]
          · intro p hp
            rcases List.mem_cons.mp hp with hp | hp
            · subst hp
              refine ⟨by simpa [data_stringMk] using hs.1, ?_⟩
              intro d hd
              exact List.mem_takeWhile_imp (by simpa [data_stringMk] using hd)
            · exact hjunk2 p hp
        · obtain ⟨parts', hrender', hnames', hjunk'⟩ := ih l' hl'
          refine ⟨litCons '[' parts', ?_, ?_, ?_⟩
          · rw [renderTmpl_litCons, hrender']
          · rw [findMatches_lb_fail hs, partNames_litCons]
            exact hnames'
          · cases hparts : parts' with
            | nil =>
              intro p hp
              rcases List.mem_cons.mp hp with hp | hp
              · subst hp; exact noTok_single '['
              · cases hp
            | cons q ps =>
              cases q with
              | param q' =>
                intro p hp
                rcases List.mem_cons.mp hp with hp | hp
                · subst hp; exact noTok_single '['
                · rw [hparts] at hjunk'
                  exact hjunk' p hp
              | lit j =>
                subst hparts
                intro p hp
                rcases List.mem_cons.mp hp with hp | hp
                · subst hp
                  intro k hv hinf
                  rcases List.infix_cons_iff.mp hinf with hpre | hinf'
                  · obtain ⟨t, ht⟩ := hpre
                    rw [paramToken, List.cons_append] at ht
                    injection ht with _ h2
                    have hj : j = k.data ++ ']' :: t := by
                      rw [← h2]; simp [List.append_assoc]
                    have hl'eq : l' = k.data ++ ']' :: (t ++ renderTmpl ps) := by
                      rw [← hrender']
                      simp only [renderTmpl, hj]
                      simp [List.append_assoc]
                    have hdc := takeWhile_alnum_decomp (m := t ++ renderTmpl ps) hv.2
                    refine absurd (And.intro ?_ ?_) hs
                    · rw [hl'eq, hdc.1]; exact hv.1
                    · rw [hl'eq, hdc.2]; rfl
                  · exact hjunk' _ (List.mem_cons_self _ _) k hv hinf'
                · exact hjunk' p (List.mem_cons_of_mem _ hp)
      · obtain ⟨parts', hrender', hnames', hjunk'⟩ := ih l' hl'
        exact ⟨litCons c parts', by rw [renderTmpl_litCons, hrender'],
          by rw [findMatches_none_cons_ne hlb, partNames_litCons]; exact hnames',
          junkOK_litCons_of_ne hlb hjunk'⟩

theorem getSubstitution_cons_ne {c : Char} (hc : c ≠ '$')
    (matched before after rest : List Char) :
    getSubstitution matched before after (c :: rest) =
      c :: getSubstitution matched before after rest := by
  cases rest with
  | nil => simp [getSubstitution, hc]
  | cons d r2 => simp [getSubstitution, hc]

theorem getSubstitution_no_dollar (matched before after : List Char) :
    ∀ {rep : List Char}, '$' ∉ rep → getSubstitution matched before after rep = rep := by
  intro rep
  induction rep with
  | nil => intro _; rfl
  | cons c rest ih =>
    intro h
    have hc : c ≠ '$' := fun hc => h (hc ▸ List.mem_cons_self _ _)
    rw [getSubstitution_cons_ne hc]
    rw [ih (fun hm => h (List.mem_cons_of_mem _ hm))]

theorem replaceFirstAux_eq_lit {pat rep : List Char} (h : '$' ∉ rep) :
    ∀ (l before : List Char), replaceFirstAux pat rep before l = replaceFirstLit pat rep l := by
  intro l
  induction l with
  | nil =>
    intro before
    by_cases hp : pat.isEmpty = true
    · simp [replaceFirstAux, replaceFirstLit, hp, getSubstitution_no_dollar _ _ _ h]
    · simp [replaceFirstAux, replaceFirstLit, hp]
  | cons c cs ih =>
    intro before
    by_cases hp : pat.isPrefixOf (c :: cs) = true
    · simp only [replaceFirstAux, replaceFirstLit, hp, if_true]
      rw [getSubstitution_no_dollar _ _ _ h]
    · simp only [replaceFirstAux, replaceFirstLit]
      rw [if_neg hp, if_neg hp, ih (c :: before)]

theorem replaceFirst_eq_lit {pat rep : List Char} (h : '$' ∉ rep) (l : List Char) :
    replaceFirst pat rep l = replaceFirstLit pat rep l :=
  replaceFirstAux_eq_lit h l []

theorem replaceFirstAux_of_no_occurrence {pat : List Char} (hpat : pat ≠ []) (v : List Char) :
    ∀ l, ¬ pat <:+: l → ∀ before, replaceFirstAux pat v before l = l := by
  intro l
  induction l with
  | nil =>
    intro _ before
    simp [replaceFirstAux, List.isEmpty_iff, hpat]
  | cons c cs ih =>
    intro h before
    have hp : pat.isPrefixOf (c :: cs) = false := by
      cases hx : pat.isPrefixOf (c :: cs) with
      | false => rfl
      | true =>
        exact absurd (List.isPrefixOf_iff_prefix.mp hx).isInfix h
    simp only [replaceFirstAux, hp, Bool.false_eq_true, if_false]
    rw [ih (fun hinf => h (List.infix_cons hinf)) (c :: before)]

theorem replaceFirst_of_no_occurrence {pat : List Char} (hpat : pat ≠ []) (v : List Char) :
    ∀ l, ¬ pat <:+: l → replaceFirst pat v l = l :=
  fun l h => replaceFirstAux_of_no_occurrence hpat v l h []

theorem replaceFirstAux_first_occurrence {pat : List Char} (hpat : pat ≠ []) (v : List Char) :
    ∀ l, pat <:+: l → ∀ before, ∃ a b, l = a ++ pat ++ b ∧
      (∀ a' b', l = a' ++ pat ++ b' → a.length ≤ a'.length) ∧
      replaceFirstAux pat v before l =
        a ++ getSubstitution pat (before.reverse ++ a) b v ++ b := by
  intro l
  induction l with
  | nil =>
    intro h
    rw [List.infix_nil] at h
    exact absurd h hpat
  | cons c cs ih =>
    intro h before
    cases hp : pat.isPrefixOf (c :: cs) with
    | true =>
      obtain ⟨t, ht⟩ := List.isPrefixOf_iff_prefix.mp hp
      refine ⟨[], t, by simp [← ht], fun a' b' _ => by simp, ?_⟩
      simp only [replaceFirstAux, hp, if_true, List.nil_append, List.append_nil]
      rw [← ht, List.drop_left]
    | false =>
      have hni : ¬ pat <+: (c :: cs) := by
        intro hpre
        rw [List.isPrefixOf_iff_prefix.mpr hpre] at hp
        cases hp
      have hinf' : pat <:+: cs := by
        rcases List.infix_cons_iff.mp h with hpre | h'
        · exact absurd hpre hni
        · exact h'
      obtain ⟨a, b, hab, hmin, hres⟩ := ih hinf' (c :: before)
      refine ⟨c :: a, b, by simp [hab], ?_, ?_⟩
      · intro a' b' heq
        cases a' with
        | nil =>
          rw [List.nil_append] at heq
          exact absurd ⟨b', heq.symm⟩ hni
        | cons c' a'' =>
          rw [List.cons_append, List.cons_append] at heq
          injection heq with _ h2
          have := hmin a'' b' (by simpa [List.append_assoc] using h2)
          simp only [List.length_cons]
          omega
      · simp only [replaceFirstAux, hp, Bool.false_eq_true, if_false]
        rw [hres]
        simp [List.append_assoc]

theorem replaceFirst_first_occurrence {pat : List Char} (hpat : pat ≠ []) (v : List Char) :
    ∀ l, pat <:+: l → ∃ a b, l = a ++ pat ++ b ∧
      (∀ a' b', l = a' ++ pat ++ b' → a.length ≤ a'.length) ∧
      replaceFirst pat v l = a ++ getSubstitution pat a b v ++ b := by
  intro l h
  obtain ⟨a, b, hab, hmin, hres⟩ := replaceFirstAux_first_occurrence hpat v l h []
  refine ⟨a, b, hab, hmin, ?_⟩
  show replaceFirstAux pat v [] l = a ++ getSubstitution pat a b v ++ b
  simpa using hres

theorem isPrefixOf_false_of_head_ne {a b : Char} (h : a ≠ b) (xs ys : List Char) :
    (a :: xs).isPrefixOf (b :: ys) = false := by
  cases hx : (a :: xs).isPrefixOf (b :: ys) with
  | false => rfl
  | true =>
    have := List.isPrefixOf_iff_prefix.mp hx
    rw [List.cons_prefix_cons] at this
    exact absurd this.1 h

theorem replaceFirstLit_paramToken_append {k : String} {s : List Char}
    (hs : ∀ c ∈ s, c ≠ '[') (v m : List Char) :
    replaceFirstLit (paramToken k) v (s ++ m) = s ++ replaceFirstLit (paramToken k) v m := by
  induction s with
  | nil => rfl
  | cons c cs ih =>
    rw [List.cons_append]
    have hnp : (paramToken k).isPrefixOf (c :: (cs ++ m)) = false := by
      rw [paramToken]
      exact isPrefixOf_false_of_head_ne
        (fun hlb => (hs c (List.mem_cons_self _ _)) hlb.symm) _ _
    simp only [replaceFirstLit, hnp, Bool.false_eq_true, if_false]
    rw [ih (fun d hd => hs d (List.mem_cons_of_mem _ hd))]
    rfl

theorem validName_close_pref {a : List Char} (ha : ∀ c ∈ a, isAlnum c = true) :
    ∀ {b m : List Char}, (∀ c ∈ b, isAlnum c = true) →
      (a ++ [']']) <+: (b ++ ']' :: m) → a = b := by
  induction a with
  | nil =>
    intro b m hb h
    cases b with
    | nil => rfl
    | cons d ds =>
      rw [List.nil_append, List.cons_append] at h
      rw [List.cons_prefix_cons] at h
      have := hb d (List.mem_cons_self _ _)
      rw [← h.1] at this
      exact absurd this (by decide)
  | cons x a' iha =>
    intro b m hb h
    cases b with
    | nil =>
      rw [List.cons_append, List.nil_append] at h
      rw [List.cons_prefix_cons] at h
      have := ha x (List.mem_cons_self _ _)
      rw [h.1] at this
      exact absurd this (by decide)
    | cons d ds =>
      rw [List.cons_append, List.cons_append] at h
      rw [List.cons_prefix_cons] at h
      have htail := iha (fun c hc => ha c (List.mem_cons_of_mem _ hc))
        (fun c hc => hb c (List.mem_cons_of_mem _ hc)) h.2
      rw [h.1, htail]

theorem paramToken_pref_eq {k q : String} (hk : validName k) (hq : validName q)
    (m : List Char) (h : paramToken k <+: (paramToken q ++ m)) : k = q := by
  simp only [paramToken, List.cons_append, List.append_assoc] at h
  rw [List.cons_prefix_cons] at h
  have hdata : k.data = q.data :=
    validName_close_pref hk.2 hq.2 (by simpa [List.append_assoc] using h.2)
  exact String.ext hdata

theorem replaceFirstLit_paramToken_ne {k q : String} (hk : validName k) (hq : validName q)
    (hne : q ≠ k) (v m : List Char) :
    replaceFirstLit (paramToken k) v (paramToken q ++ m) =
      paramToken q ++ replaceFirstLit (paramToken k) v m := by
  have hshape : paramToken q ++ m = '[' :: (q.data ++ ']' :: m) := by
    simp [paramToken, List.append_assoc]
  have hnp : (paramToken k).isPrefixOf ('[' :: (q.data ++ ']' :: m)) = false := by
    cases hx : (paramToken k).isPrefixOf ('[' :: (q.data ++ ']' :: m)) with
    | false => rfl
    | true =>
      have hpre := List.isPrefixOf_iff_prefix.mp hx
      rw [← hshape] at hpre
      exact absurd (paramToken_pref_eq hk hq m hpre).symm hne
  rw [hshape]
  simp only [replaceFirstLit, hnp, Bool.false_eq_true, if_false]
  have hpass : replaceFirstLit (paramToken k) v (q.data ++ ']' :: m) =
      q.data ++ replaceFirstLit (paramToken k) v (']' :: m) :=
    replaceFirstLit_paramToken_append
      (fun c hc => isAlnum_ne_lb (hq.2 c hc)) v (']' :: m)
  rw [hpass]
  have hnp2 : (paramToken k).isPrefixOf (']' :: m) = false := by
    rw [paramToken]
    exact isPrefixOf_false_of_head_ne (by decide) _ _
  simp only [replaceFirstLit, hnp2, Bool.false_eq_true, if_false]
  simp [paramToken, List.append_assoc]

/-- Replace the first parameter part named `k` by a literal piece `v`. -/
def substParam : List TmplPart → String → List Char → List TmplPart
  | [], _, _ => []
  | TmplPart.lit s :: ps, k, v => TmplPart.lit s :: substParam ps k v
  | TmplPart.param p :: ps, k, v =>
    if p = k then TmplPart.lit v :: ps else TmplPart.param p :: substParam ps k v

theorem replaceFirstLit_renderTmpl {k : String} (hk : validName k) (v : List Char) :
    ∀ parts, (∀ p ∈ parts, partOK p) →
      replaceFirstLit (paramToken k) v (renderTmpl parts) =
        renderTmpl (substParam parts k v) := by
  intro parts
  induction parts with
  | nil =>
    intro _
    simp [renderTmpl, substParam, replaceFirstLit, paramToken]
  | cons p ps ih =>
    intro hOK
    cases p with
    | lit s =>
      have hs : litFree s := hOK _ (List.mem_cons_self _ _)
      simp only [renderTmpl, substParam]
      rw [replaceFirstLit_paramToken_append (fun c hc => (hs c hc).1),
        ih (fun q hq => hOK q (List.mem_cons_of_mem _ hq))]
    | param q =>
      have hq : validName q := hOK _ (List.mem_cons_self _ _)
      by_cases hpq : q = k
      · subst hpq
        simp only [renderTmpl, substParam, if_pos rfl]
        have hshape : paramToken q ++ renderTmpl ps =
            '[' :: (q.data ++ [']'] ++ renderTmpl ps) := by
          simp [paramToken]
        have hpre : (paramToken q).isPrefixOf ('[' :: (q.data ++ [']'] ++ renderTmpl ps)) = true := by
          rw [← hshape]
          exact List.isPrefixOf_iff_prefix.mpr (List.prefix_append _ _)
        rw [hshape]
        simp only [replaceFirstLit, hpre, if_true]
        rw [← hshape, List.drop_left]
      · simp only [renderTmpl, substParam, if_neg hpq]
        rw [replaceFirstLit_paramToken_ne hk hq hpq,
          ih (fun r hr => hOK r (List.mem_cons_of_mem _ hr))]

theorem partNames_substParam_subset {k : String} {v : List Char} :
    ∀ (parts : List TmplPart) (j : String),
      j ∈ partNames (substParam parts k v) → j ∈ partNames parts := by
  intro parts
  induction parts with
  | nil => intro j hj; exact hj
  | cons p ps ih =>
    intro j hj
    cases p with
    | lit s =>
      exact ih j hj
    | param q =>
      by_cases hpq : q = k
      · rw [substParam, if_pos hpq] at hj
        exact List.mem_cons_of_mem _ hj
      · rw [substParam, if_neg hpq] at hj
        rcases List.mem_cons.mp hj with hj | hj
        · exact hj ▸ List.mem_cons_self _ _
        · exact List.mem_cons_of_mem _ (ih j hj)

theorem partOK_substParam {parts : List TmplPart} (h : ∀ p ∈ parts, partOK p)
    {k : String} {v : List Char} (hv : litFree v) :
    ∀ p ∈ substParam parts k v, partOK p := by
  induction parts with
  | nil => intro p hp; exact h p hp
  | cons q ps ih =>
    intro p hp
    cases q with
    | lit s =>
      rcases List.mem_cons.mp hp with hp | hp
      · exact hp ▸ h _ (List.mem_cons_self _ _)
      · exact ih (fun r hr => h r (List.mem_cons_of_mem _ hr)) p hp
    | param q' =>
      by_cases hpq : q' = k
      · rw [substParam, if_pos hpq] at hp
        rcases List.mem_cons.mp hp with hp | hp
        · exact hp ▸ hv
        · exact h p (List.mem_cons_of_mem _ hp)
      · rw [substParam, if_neg hpq] at hp
        rcases List.mem_cons.mp hp with hp | hp
        · exact hp ▸ h _ (List.mem_cons_self _ _)
        · exact ih (fun r hr => h r (List.mem_cons_of_mem _ hr)) p hp

theorem nodup_partNames_substParam {k : String} {v : List Char} :
    ∀ {parts : List TmplPart}, (partNames parts).Nodup →
      (partNames (substParam parts k v)).Nodup := by
  intro parts
  induction parts with
  | nil => intro h; exact h
  | cons p ps ih =>
    intro h
    cases p with
    | lit s => exact ih h
    | param q =>
      rw [partNames, List.nodup_cons] at h
      by_cases hpq : q = k
      · rw [substParam, if_pos hpq]
        exact h.2
      · rw [substParam, if_neg hpq, partNames, List.nodup_cons]
        exact ⟨fun hmem => h.1 (partNames_substParam_subset ps q hmem), ih h.2⟩

theorem not_mem_partNames_substParam {k : String} {v : List Char} :
    ∀ {parts : List TmplPart}, (partNames parts).Nodup →
      k ∉ partNames (substParam parts k v) := by
  intro parts
  induction parts with
  | nil => intro _ hk; cases hk
  | cons p ps ih =>
    intro h
    cases p with
    | lit s => exact ih h
    | param q =>
      rw [partNames, List.nodup_cons] at h
      by_cases hpq : q = k
      · rw [substParam, if_pos hpq, partNames]
        rw [← hpq]
        exact h.1
      · rw [substParam, if_neg hpq, partNames]
        intro hmem
        rcases List.mem_cons.mp hmem with hmem | hmem
        · exact hpq hmem.symm
        · exact ih h.2 hmem

theorem replaceParams_fold : ∀ (v : Query) (parts : List TmplPart),
    (∀ p ∈ parts, partOK p) → (partNames parts).Nodup →
    (∀ kv ∈ v, validName kv.1 ∧ litFree kv.2.data ∧ '$' ∉ kv.2.data) →
    ∃ parts', (∀ p ∈ parts', partOK p) ∧ (partNames parts').Nodup ∧
      (∀ j ∈ partNames parts', j ∈ partNames parts) ∧
      (∀ kv ∈ v, kv.1 ∉ partNames parts') ∧
      List.foldl (fun pathname kv => replaceFirst (paramToken kv.1) kv.2.data pathname)
        (renderTmpl parts) v = renderTmpl parts' := by
  intro v
  induction v with
  | nil =>
    intro parts hOK hnd _
    refine ⟨parts, hOK, hnd, fun j hj => hj, ?_, rfl⟩
    intro kv hkv
    cases hkv
  | cons kv v' ih =>
    intro parts hOK hnd hv
    have hkv := hv kv (List.mem_cons_self _ _)
    have hstep : replaceFirst (paramToken kv.1) kv.2.data (renderTmpl parts) =
        renderTmpl (substParam parts kv.1 kv.2.data) := by
      rw [replaceFirst_eq_lit hkv.2.2]
      exact replaceFirstLit_renderTmpl hkv.1 kv.2.data parts hOK
    obtain ⟨parts', hOK', hnd', hsub', hnot', hfold'⟩ :=
      ih (substParam parts kv.1 kv.2.data)
        (partOK_substParam hOK hkv.2.1)
        (nodup_partNames_substParam hnd)
        (fun kv' h => hv kv' (List.mem_cons_of_mem _ h))
    refine ⟨parts', hOK', hnd', ?_, ?_, ?_⟩
    · intro j hj
      exact partNames_substParam_subset parts j (hsub' j hj)
    · intro kv' hkv'
      rcases List.mem_cons.mp hkv' with hkv' | hkv'
      · subst hkv'
        intro hmem
        exact not_mem_partNames_substParam hnd (hsub' _ hmem)
      · exact hnot' kv' hkv'
    · rw [List.foldl_cons, hstep, hfold']

/-- An upper bound witnessing that each emitted parameter consumes at least
three characters of the input: the characters already consumed towards a
candidate token in a given scan state. -/
def stateCost : Option (List Char) → Nat
  | none => 0
  | some acc => 1 + acc.length

theorem findMatches_length_bound : ∀ (l : List Char) (st : Option (List Char)),
    3 * (findMatches st l).length ≤ l.length + stateCost st := by
  intro l
  induction l with
  | nil =>
    intro st
    rw [findMatches_nil]
    simp
  | cons c cs ih =>
    intro st
    cases st with
    | none =>
      by_cases hlb : c = '['
      · subst hlb
        rw [findMatches_none_cons_lb]
        have := ih (some [])
        simp only [stateCost, List.length_cons, List.length_nil] at this ⊢
        omega
      · rw [findMatches_none_cons_ne hlb]
        have := ih none
        simp only [stateCost, List.length_cons] at this ⊢
        omega
    | some acc =>
      by_cases hrb : c = ']'
      · subst hrb
        rw [findMatches_some_rb]
        by_cases hacc : acc.isEmpty = true
        · rw [if_pos hacc]
          have := ih none
          simp only [stateCost, List.length_cons] at this ⊢
          omega
        · rw [if_neg hacc]
          have hpos : 0 < acc.length :=
            List.length_pos.mpr (by simpa [List.isEmpty_iff] using hacc)
          have := ih none
          simp only [stateCost, List.length_cons] at this ⊢
          omega
      · by_cases ha : isAlnum c = true
        · rw [findMatches_some_alnum ha]
          have := ih (some (c :: acc))
          simp only [stateCost, List.length_cons] at this ⊢
          omega
        · by_cases hlb : c = '['
          · subst hlb
            rw [findMatches_some_lb]
            have := ih (some [])
            simp only [stateCost, List.length_cons, List.length_nil] at this ⊢
            omega
          · rw [findMatches_some_junk hrb hlb (by simpa using ha)]
            have := ih none
            simp only [stateCost, List.length_cons] at this ⊢
            omega

theorem omitKeys_eq_filter (q : Query) (props : List String) :
    omitKeys q props = q.filter (fun kv => decide (kv.1 ∉ props)) := by
  unfold omitKeys
  congr 1
  funext kv
  simp [List.contains, List.elem_eq_mem, decide_not]

theorem escapePathChars_of_no_specials {s : String} (h1 : '?' ∉ s.data) (h2 : '#' ∉ s.data) :
    escapePathChars s = s := by
  unfold escapePathChars
  conv_rhs => rw [← stringMk_data s]
  congr 1
  have : ∀ l : List Char, '?' ∉ l → '#' ∉ l →
      ((l.map (fun c =>
        if c = '?' then ['%', '3', 'F'] else if c = '#' then ['%', '2', '3'] else [c])).flatten) = l := by
    intro l
    induction l with
    | nil => intro _ _; rfl
    | cons c cs ih =>
      intro hq hh
      have hcq : c ≠ '?' := fun h => hq (h ▸ List.mem_cons_self _ _)
      have hch : c ≠ '#' := fun h => hh (h ▸ List.mem_cons_self _ _)
      simp only [List.map_cons, List.flatten_cons, if_neg hcq, if_neg hch,
        List.singleton_append]
      rw [ih (fun h => hq (List.mem_cons_of_mem _ h)) (fun h => hh (List.mem_cons_of_mem _ h))]
  exact this s.data h1 h2

theorem ite_ite_or (a b : Bool) :
    (if a = true then true else if b = true then true else false) = (a || b) := by
  cases a <;> cases b <;> rfl

theorem wantsNewTab_true_iff (e : MouseEventModel) :
    wantsNewTab e = true ↔
      ((∃ tg, e.target = some tg ∧ tg ≠ "" ∧ tg ≠ "_self") ∨
        (e.nodeName = "A" ∧ (e.metaKey = true ∨ e.ctrlKey = true ∨ e.shiftKey = true ∨
          e.nativeWhich = some 2))) := by
  rcases e with ⟨nn, tg, mk0, ck, sk, nw⟩
  cases tg with
  | none =>
    simp only [wantsNewTab]
    rw [ite_ite_or]
    simp [Bool.or_eq_true, Bool.and_eq_true, beq_iff_eq, or_assoc]
  | some t =>
    simp only [wantsNewTab]
    rw [ite_ite_or]
    simp [Bool.or_eq_true, Bool.and_eq_true, beq_iff_eq, or_assoc, and_assoc]

/-- C1: for every route, mode and options, `navigate` (and its
specializations `pushRoute`/`replaceRoute`) invokes the capability exactly
once with the templated descriptor, the concrete descriptor (substituted
pathname plus the query with every template parameter key removed), and the
options passed through unchanged, in that argument order; on the spec's
example the push receives exactly the documented pair of descriptors. -/
theorem c1_navigate_dual_descriptors :
    (∀ (route : Route) (type : NavMode) (options : Option RouteOptions) (outcome : Bool),
      (navigate route type options outcome).calls =
        [{ mode := type,
           templated := { pathname := route.pathname, query := route.query },
           concrete := { pathname := replaceParams route.pathname route.query,
                         query := (route.query.getD []).filter
                           (fun kv => decide (kv.1 ∉ findParams route.pathname)) },
           options := options }]) ∧
    (∀ (route : Route) (options : Option RouteOptions) (outcome : Bool),
      pushRoute route options outcome = navigate route NavMode.push options outcome) ∧
    (∀ (route : Route) (options : Option RouteOptions) (outcome : Bool),
      replaceRoute route options outcome = navigate route NavMode.replace options outcome) ∧
    (pushRoute ⟨"/users/[id]", some [("id", "1"), ("tab", "info")]⟩
        (some ⟨some true⟩) true).calls =
      [⟨NavMode.push, ⟨"/users/[id]", some [("id", "1"), ("tab", "info")]⟩,
        ⟨"/users/1", [("tab", "info")]⟩, some ⟨some true⟩⟩] := by
  refine ⟨?_, fun _ _ _ => rfl, fun _ _ _ => rfl, by decide⟩
  intro route type options outcome
  simp only [navigate, navigateCall, omitKeys_eq_filter]

/-- C2 (amended): the mock router's `asPath` is always computed as
`routeToString({basePath: ''}, {pathname, query})` — the caller-supplied
`asPath` option declared in `CreateMockRouterOptions` is ignored — and
`route` is the input pathname verbatim; the spec's concrete example holds. -/
theorem c2_mock_router_asPath :
    (∀ options : CreateMockRouterOptions,
      (createMockRouter options).asPath =
        routeToString (some "")
          { pathname := options.pathname, query := some (options.query.getD []) } ∧
      (createMockRouter options).route = options.pathname) ∧
    (createMockRouter
        ⟨"/admin/requests/[uuid]", none, some [("uuid", "1"), ("hash", "12345")], none⟩).asPath =
      "/admin/requests/1?hash=12345" ∧
    (createMockRouter
        ⟨"/admin/requests/[uuid]", none, some [("uuid", "1"), ("hash", "12345")], none⟩).route =
      "/admin/requests/[uuid]" := by
  exact ⟨fun options => ⟨rfl, rfl⟩, by decide, by decide⟩

/-- C2 counterexample: a caller-supplied `asPath` override is NOT used —
`createMockRouter` with `asPath: '/custom'` still computes `asPath` from the
pathname, contradicting the claim that the override is taken when provided. -/
theorem c2_counterexample :
    (createMockRouter ⟨"/a", some "/custom", none, none⟩).asPath = "/a" ∧
    (createMockRouter ⟨"/a", some "/custom", none, none⟩).asPath ≠ "/custom" := by
  decide

/-- C3 (amended): on a well-formed template (an alternation of bracket-free
literals and alphanumeric parameter tokens) `findParams` returns exactly the
template's parameter names in order — with multiplicity, duplicates are not
collapsed; and when the parameter names are pairwise distinct, the value
mapping's keys are alphanumeric names and its values contain no bracket and
no dollar character (so `String.replace`'s GetSubstitution leaves them
literal), `findParams (replaceParams t v)` contains no key of `v`. -/
theorem c3_findParams_residual :
    (∀ parts : List TmplPart, (∀ p ∈ parts, partOK p) →
      findParams (String.mk (renderTmpl parts)) = partNames parts) ∧
    (∀ (parts : List TmplPart) (v : Query),
      (∀ p ∈ parts, partOK p) → (partNames parts).Nodup →
      (∀ kv ∈ v, validName kv.1 ∧ litFree kv.2.data ∧ '$' ∉ kv.2.data) →
      ∀ kv ∈ v, kv.1 ∉ findParams (replaceParams (String.mk (renderTmpl parts)) (some v))) := by
  constructor
  · intro parts hOK
    exact findMatches_renderTmpl parts hOK
  · intro parts v hOK hnd hv kv hkv
    obtain ⟨parts', hOK', _, _, hnot', hfold'⟩ := replaceParams_fold v parts hOK hnd hv
    have hrw : replaceParams (String.mk (renderTmpl parts)) (some v) =
        String.mk (renderTmpl parts') := by
      show String.mk
        (List.foldl (fun pathname kv => replaceFirst (paramToken kv.1) kv.2.data pathname)
          (renderTmpl parts) v) = String.mk (renderTmpl parts')
      rw [hfold']
    rw [hrw]
    show kv.1 ∉ findMatches none (renderTmpl parts')
    rw [findMatches_renderTmpl parts' hOK']
    exact hnot' kv hkv

theorem c3_witness :
    findParams (String.mk (renderTmpl [TmplPart.lit ['/'], TmplPart.param "x"])) = ["x"] ∧
    "x" ∉ findParams (replaceParams
      (String.mk (renderTmpl [TmplPart.lit ['/'], TmplPart.param "x"])) (some [("x", "1")])) := by
  constructor
  · rw [c3_findParams_residual.1 [TmplPart.lit ['/'], TmplPart.param "x"] (by decide)]
    decide
  · exact c3_findParams_residual.2 [TmplPart.lit ['/'], TmplPart.param "x"] [("x", "1")]
      (by decide) (by decide) (by decide) ("x", "1") (by decide)

/-- C3 counterexample: on the template `/[x]/[x]` with values `x = 1`,
`findParams` returns `x` twice (so the result is not a list of distinct
tokens), and `findParams (replaceParams t v)` still contains the key `x`
(only the first occurrence is substituted). -/
theorem c3_counterexample :
    ¬ (findParams "/[x]/[x]").Nodup ∧
    "x" ∈ findParams (replaceParams "/[x]/[x]" (some [("x", "1")])) := by
  decide

/-- C4 (amended): `replaceParams` returns the template unchanged when the
values are absent; for a key `k` it performs a single substitution at the
leftmost occurrence of `[k]` (the minimality clause below), inserting the
value expanded per ECMAScript `String.replace` GetSubstitution — which is
the value itself whenever it contains no dollar character; it leaves the
template unchanged when `[k]` does not occur, and leaves tokens with missing
keys unsubstituted, as on the spec example. -/
theorem c4_replaceParams_first_occurrence :
    (∀ t : String, replaceParams t none = t) ∧
    (∀ (t k val : String), ¬ paramToken k <:+: t.data →
      replaceParams t (some [(k, val)]) = t) ∧
    (∀ (t k val : String), paramToken k <:+: t.data →
      ∃ a b, t.data = a ++ paramToken k ++ b ∧
        (∀ a' b', t.data = a' ++ paramToken k ++ b' → a.length ≤ a'.length) ∧
        (replaceParams t (some [(k, val)])).data =
          a ++ getSubstitution (paramToken k) a b val.data ++ b) ∧
    (∀ (matched before after : List Char) (val : String), '$' ∉ val.data →
      getSubstitution matched before after val.data = val.data) ∧
    replaceParams "/a/[x]/[y]" (some [("x", "1")]) = "/a/1/[y]" := by
  refine ⟨fun t => rfl, ?_, ?_, ?_, by decide⟩
  · intro t k val hni
    have h := replaceFirst_of_no_occurrence (paramToken_ne_nil k) val.data t.data hni
    show String.mk (replaceFirst (paramToken k) val.data t.data) = t
    rw [h]
  · intro t k val hinf
    obtain ⟨a, b, hab, hmin, hres⟩ :=
      replaceFirst_first_occurrence (paramToken_ne_nil k) val.data t.data hinf
    refine ⟨a, b, hab, hmin, ?_⟩
    show (String.mk (replaceFirst (paramToken k) val.data t.data)).data =
      a ++ getSubstitution (paramToken k) a b val.data ++ b
    rw [data_stringMk, hres]
  · intro matched before after val h
    exact getSubstitution_no_dollar matched before after h

theorem c4_witness :
    ∃ a b, "/a/[x]/[y]".data = a ++ paramToken "x" ++ b ∧
      (∀ a' b', "/a/[x]/[y]".data = a' ++ paramToken "x" ++ b' → a.length ≤ a'.length) ∧
      (replaceParams "/a/[x]/[y]" (some [("x", "1")])).data =
        a ++ getSubstitution (paramToken "x") a b "1".data ++ b :=
  c4_replaceParams_first_occurrence.2.2.1 "/a/[x]/[y]" "x" "1"
    ⟨['/', 'a', '/'], ['/', '[', 'y', ']'], by decide⟩

/-- C4 counterexample: `replaceParams` does not insert the raw value — with
value `$&` ECMAScript's GetSubstitution reinserts the matched token, so
`replaceParams('/[x]', {x: '$&'})` is `'/[x]'` and not the
literal-substitution result `'/$&'` the claim describes. -/
theorem c4_counterexample :
    replaceParams "/[x]" (some [("x", "$&")]) = "/[x]" ∧
    ("/[x]" : String) ≠ "/$&" := by
  decide

/-- C5: membership in `findParams t` is exactly the occurrence of the
bracketed token `[k]` in `t` for alphanumeric nonempty names `k`; every
returned name is such a name; every string decomposes into an alternation of
token-free junk and the returned tokens in left-to-right order; and a
bracketed span with non-alphanumeric content (`[...slug]`) or an empty
string yields the empty list. -/
theorem c5_findParams_tokens :
    (∀ (t k : String), validName k → (k ∈ findParams t ↔ paramToken k <:+: t.data)) ∧
    (∀ (t k : String), k ∈ findParams t → validName k) ∧
    (∀ t : String, ∃ parts : List TmplPart,
      renderTmpl parts = t.data ∧ findParams t = partNames parts ∧ ∀ p ∈ parts, junkOK p) ∧
    findParams "/[...slug]" = [] ∧ findParams "" = [] := by
  refine ⟨?_, ?_, ?_, by decide, rfl⟩
  · intro t k hv
    constructor
    · intro hmem
      have := mem_findMatches_infix t.data none k hmem
      simpa [statePrefix] using this
    · intro hinf
      exact infix_mem_findMatches t.data k hv hinf
  · intro t k hmem
    exact mem_findMatches_valid t.data none trivial k hmem
  · intro t
    exact exists_parts_aux t.data.length t.data (Nat.le_refl _)

theorem c5_witness :
    ("id" ∈ findParams "/posts/[id]" ↔ paramToken "id" <:+: "/posts/[id]".data) ∧
    "id" ∈ findParams "/posts/[id]" :=
  ⟨c5_findParams_tokens.1 "/posts/[id]" "id" (by decide), by decide⟩

/-- C6 (amended): the link built by `createLink` has `isActive` equal to
exact string equality of the current route template with `route.pathname`
(prefix or concrete-path matches never count), `href` equal to
`routeToString(capability, route)`, and `onClick` equal to the click
interpreter bound to the same route but with NO options — the source does
not forward `options` to `createClickHandler`. -/
theorem c6_createLink_fields :
    (∀ (router : NextRouterState) (route : Route) (options : Option RouteOptions),
      ((createLink router route options).isActive = true ↔ router.route = route.pathname) ∧
      (createLink router route options).href = routeToString (some router.basePath) route ∧
      (createLink router route options).onClick = createClickHandler route none ∧
      (createLink router route options).pushCalls = [navigateCall route NavMode.push options] ∧
      (createLink router route options).replaceCalls =
        [navigateCall route NavMode.replace options]) ∧
    (createLink (createMockRouter ⟨"/posts/[id]", none, some [("id", "1")], none⟩)
      ⟨"/posts/1", none⟩ none).isActive = false := by
  refine ⟨?_, by decide⟩
  intro router route options
  exact ⟨beq_iff_eq, rfl, rfl, rfl, rfl⟩

/-- C6 counterexample: `createLink` does not bind the supplied options into
`onClick` — with `options = {shallow: true}` the click handler is bound with
no options, contradicting the claim that `onClick` carries the same
options. -/
theorem c6_counterexample :
    (createLink (createMockRouter ⟨"/", none, none, none⟩) ⟨"/x", none⟩
      (some ⟨some true⟩)).onClick ≠
    createClickHandler ⟨"/x", none⟩ (some ⟨some true⟩) := by
  decide

/-- C7 (amended): the handler takes no action (no preventDefault, no
navigation) exactly when the element's target attribute is set to a
NONEMPTY value other than `_self`, or the element is an anchor
(`nodeName === 'A'`) and the event carries a meta/ctrl/shift modifier or is
a middle-click (`nativeEvent.which === 2`); otherwise it calls
preventDefault and issues exactly one push of the bound route with the
handler's bound options. -/
theorem c7_click_interpreter :
    ∀ (route : Route) (options : Option RouteOptions) (e : MouseEventModel),
      (wantsNewTab e = true ↔
        ((∃ tg, e.target = some tg ∧ tg ≠ "" ∧ tg ≠ "_self") ∨
          (e.nodeName = "A" ∧ (e.metaKey = true ∨ e.ctrlKey = true ∨ e.shiftKey = true ∨
            e.nativeWhich = some 2)))) ∧
      (wantsNewTab e = true →
        runClickHandler (createClickHandler route options) e =
          { preventedDefault := false, pushes := [] }) ∧
      (wantsNewTab e = false →
        runClickHandler (createClickHandler route options) e =
          { preventedDefault := true,
            pushes := [navigateCall route NavMode.push options] }) := by
  intro route options e
  refine ⟨wantsNewTab_true_iff e, ?_, ?_⟩
  · intro h
    simp [runClickHandler, h]
  · intro h
    simp [runClickHandler, h, createClickHandler]

theorem c7_witness :
    runClickHandler (createClickHandler ⟨"/x", none⟩ none)
      ⟨"A", none, false, false, false, none⟩ =
      ⟨true, [navigateCall ⟨"/x", none⟩ NavMode.push none]⟩ :=
  (c7_click_interpreter ⟨"/x", none⟩ none
    ⟨"A", none, false, false, false, none⟩).2.2 (by decide)

/-- C7 counterexample: a ctrl-click on a non-anchor element (`nodeName`
`BUTTON`) — the claim says the handler must take no action, but the code's
modifier check applies only to anchors, so it prevents default and issues a
push. -/
theorem c7_counterexample :
    (runClickHandler (createClickHandler ⟨"/x", none⟩ none)
      ⟨"BUTTON", none, false, true, false, none⟩).preventedDefault = true ∧
    (runClickHandler (createClickHandler ⟨"/x", none⟩ none)
      ⟨"BUTTON", none, false, true, false, none⟩).pushes.length = 1 := by
  decide

/-- C8: `navigate` performs the scroll reset exactly when the awaited
outcome is true and the pathname contains a `#`, and it returns the boolean
outcome unchanged (a false outcome is an ordinary return value — the model
is total, nothing is thrown). -/
theorem c8_navigate_scroll_and_outcome :
    ∀ (route : Route) (type : NavMode) (options : Option RouteOptions) (outcome : Bool),
      ((navigate route type options outcome).scrolled = true ↔
        outcome = true ∧ '#' ∈ route.pathname.data) ∧
      (navigate route type options outcome).result = outcome := by
  intro route type options outcome
  refine ⟨?_, rfl⟩
  show (outcome && route.pathname.data.contains '#') = true ↔ _
  simp [Bool.and_eq_true, List.contains, List.elem_eq_mem]

/-- C9: the pure route-string functions are total: `findParams` terminates
on every string (each emitted parameter consumes at least three input
characters), `removeParams` always yields a sub-sequence of the query,
`replaceParams` with absent values is the identity, and `routeToString`
yields a value on every input (equal to the bare pathname when there is no
query and no character needing escape). -/
theorem c9_pure_functions_total :
    ∀ (s : String) (q : Query) (v : Option Query) (basePath : Option String) (r : Route),
      3 * (findParams s).length ≤ s.data.length ∧
      (removeParams s q).Sublist q ∧
      replaceParams s none = s ∧
      (∃ out, replaceParams s v = out) ∧
      ('?' ∉ s.data → '#' ∉ s.data →
        routeToString none { pathname := s, query := none } = s) ∧
      (∃ href, routeToString basePath r = href) := by
  intro s q v basePath r
  refine ⟨?_, ?_, rfl, ⟨_, rfl⟩, ?_, ⟨_, rfl⟩⟩
  · have := findMatches_length_bound s.data none
    simpa [findParams, stateCost] using this
  · exact List.filter_sublist q
  · intro h1 h2
    rw [show routeToString none { pathname := s, query := none } =
      escapePathChars s ++ "" from rfl]
    rw [String.append_empty]
    exact escapePathChars_of_no_specials h1 h2

theorem c9_witness :
    3 * (findParams "/posts/[id]").length ≤ "/posts/[id]".data.length ∧
    routeToString none { pathname := "/posts", query := none } = "/posts" :=
  ⟨(c9_pure_functions_total "/posts/[id]" [] none none { pathname := "/", query := none }).1,
    (c9_pure_functions_total "/posts" [] none none
      { pathname := "/", query := none }).2.2.2.2.1 (by decide) (by decide)⟩

/-- C10: `useRouter().isRouteActive` is the string-prefix test
`router.route.startsWith(route.pathname)`, so a route can be "active" by
prefix while the `createLink` `isActive` field (exact equality) is false for
the very same route — witnessed with current template `/posts/[id]` and
route pathname `/posts`. -/
theorem c10_isRouteActive_startsWith :
    (∀ (router : NextRouterState) (route : Route),
      (isRouteActive router route = true ↔ route.pathname.data <+: router.route.data)) ∧
    isRouteActive (createMockRouter ⟨"/posts/[id]", none, some [("id", "1")], none⟩)
      ⟨"/posts", none⟩ = true ∧
    (createLink (createMockRouter ⟨"/posts/[id]", none, some [("id", "1")], none⟩)
      ⟨"/posts", none⟩ none).isActive = false := by
  refine ⟨?_, by decide, by decide⟩
  intro router route
  exact List.isPrefixOf_iff_prefix

end NextRouterProvider
